import Mathlib

set_option maxRecDepth 8000

/-!
Verification development for the Concept Explorer (src/explorer.py).

The file shallowly embeds the pure/deterministic core of the program:

* the Diversity Scorer (explorer.py, _diversity_score, lines 398-408);
* the Generator Gateway parse/filter pipeline (get_related_concepts,
  lines 82-156); the JSON decoder (Python json.loads, an external library)
  is abstracted as an injected function returning Option (List String),
  with none standing for any decoding exception; the network call
  (query_ollama) is abstracted as an injected oracle producing the raw
  response text;
* the Concept Graph (a networkx DiGraph restricted to the operations the
  program uses: add_node, add_edge, successors, in_degree; insertion
  order is preserved, as networkx does);
* the BFS exploration loop (build_concept_web, lines 348-396); the single
  per-expansion uniform random draw is injected as a boolean, as the
  design notes of the spec direct; the live-rendering and sleeping side
  effects do not mutate exploration state and are dropped;
* the bounded tree renderer (_generate_ascii_tree, lines 250-346);
  colorama styling codes are omitted (presentation only) while the
  emitted lines, prefixes, connectors and marker lines are kept;
* the plain exporter (_plain_ascii_tree, lines 420-443).

General recursion over the graph (which the Python code bounds through
per-branch visited sets) is embedded with an explicit fuel parameter;
all general theorems quantify over the fuel.

Python string operations are embedded structurally over the character
list of the string (so that all definitions evaluate inside the kernel),
and Python integer arithmetic and slicing (which can involve negative
indices) are embedded through Int-valued helpers with Python semantics.
-/

/-! ## Python string and slicing helpers -/

/-- Clamp a Python slice index to a list of length n (step-1 slices). -/
def pyIdx (n : Nat) (i : Int) : Nat :=
  if i < 0 then ((n : Int) + i).toNat else min i.toNat n

/-- Python slice l[a:b] (step 1, possibly negative bounds). -/
def pySlice {α : Type} (l : List α) (a b : Int) : List α :=
  (l.take (pyIdx l.length b)).drop (pyIdx l.length a)

/-- Python string slice s[a:b]. -/
def pyStrSlice (s : String) (a b : Int) : String :=
  String.mk (pySlice s.data a b)

/-- Python str.lower(). -/
def pyLower (s : String) : String := String.mk (s.data.map Char.toLower)

/-- Helper for pyWords: accumulate the current word (reversed) while
scanning the characters. -/
def pyWordsAux : List Char → List Char → List String
  | [], acc => if acc.isEmpty then [] else [String.mk acc.reverse]
  | c :: rest, acc =>
    if c.isWhitespace then
      (if acc.isEmpty then [] else [String.mk acc.reverse]) ++ pyWordsAux rest []
    else pyWordsAux rest (c :: acc)

/-- Python str.split() with no argument: split on whitespace runs,
discarding empty pieces. -/
def pyWords (s : String) : List String := pyWordsAux s.data []

/-- Python str.strip(): remove leading and trailing whitespace. -/
def pyStrip (s : String) : String :=
  String.mk (((s.data.dropWhile Char.isWhitespace).reverse.dropWhile Char.isWhitespace).reverse)

/-- Python dict.fromkeys deduplication: keep the first occurrence. -/
def dedupFirstAux (seen : List String) : List String → List String
  | [] => []
  | x :: xs =>
    if seen.contains x then dedupFirstAux seen xs
    else x :: dedupFirstAux (x :: seen) xs

/-- Deduplicate a list keeping first occurrences (Python list(dict.fromkeys(l))). -/
def dedupFirst (l : List String) : List String := dedupFirstAux [] l

/-! ## Diversity Scorer (explorer.py:398-408) -/

/-- Lowercase whitespace tokenization: concept.lower().split(). -/
def tokens (s : String) : List String := pyWords (pyLower s)

/-- The shared words of two concepts:
set(concept.lower().split()) and set(existing.lower().split()) intersected.
The list is empty exactly when the two token sets are disjoint. -/
def sharedTokens (a b : String) : List String :=
  (tokens a).filter (fun t => (tokens b).contains t)

/-- _diversity_score: one point for every existing concept sharing no token
with the candidate. -/
def diversityScore (concept : String) (existing : List String) : Nat :=
  existing.foldl (fun score e => if sharedTokens concept e = [] then score + 1 else score) 0

/-! ## The diversity reordering (explorer.py:370-372)

Python list.sort(key=...) is a stable ascending sort by the key; a stable
insertion sort gives the identical output. -/

/-- Stable insertion (the inserted element goes before key-equal elements
already present, which came later in the original list). -/
def insertByKey (key : String → Nat) (x : String) : List String → List String
  | [] => [x]
  | y :: ys => if key y < key x then y :: insertByKey key x ys else x :: y :: ys

/-- Stable ascending sort by a Nat key, as Python list.sort(key=...). -/
def sortByKey (key : String → Nat) : List String → List String
  | [] => []
  | x :: xs => insertByKey key x (sortByKey key xs)

/-- explorer.py:370-372.  The injected boolean reorderDraw stands for the
value of the Python condition
  diversity_bias > 0 and random.random() < diversity_bias
(a deterministic function of the injected uniform draw, as directed by the
design notes of the spec); the candidate-nonemptiness conjunct of line 370
is kept explicit.  When the branch is taken, the code runs
related_concepts.sort(key=lambda x: self._diversity_score(x, self.seen_concepts)),
an ASCENDING stable sort by diversity score. -/
def reorderCandidates (reorderDraw : Bool) (cands seen : List String) : List String :=
  if reorderDraw && !cands.isEmpty then
    sortByKey (fun x => diversityScore x seen) cands
  else cands

/-! ## Claims C1 and C3 -/

/-- Claim C1 (code bug witness): with the random draw below the diversity
bias and a non-empty candidate list, the code sorts the candidates
ASCENDING by diversity score, so the least diverse candidate comes first:
for candidates ["ocean", "blue sky"] against seen set -- "blue" --, the
scores are 1 and 0 and the code returns ["blue sky", "ocean"], while the
spec (and the comment in the code, to prioritize the most different
concepts) requires the descending order ["ocean", "blue sky"].  When the
draw is not taken the generator order is kept unchanged. -/
theorem diversity_reorder_sorts_ascending :
    reorderCandidates true ["ocean", "blue sky"] ["blue"] = ["blue sky", "ocean"] ∧
    diversityScore "ocean" ["blue"] = 1 ∧
    diversityScore "blue sky" ["blue"] = 0 ∧
    reorderCandidates false ["ocean", "blue sky"] ["blue"] = ["ocean", "blue sky"] := by
  decide

theorem diversityScore_foldl (c : String) :
    ∀ (l : List String) (n : Nat),
      l.foldl (fun score e => if sharedTokens c e = [] then score + 1 else score) n =
        n + (l.filter (fun e => (sharedTokens c e).isEmpty)).length := by
  intro l
  induction l with
  | nil => intro n; simp
  | cons e rest ih =>
    intro n
    by_cases h : sharedTokens c e = []
    · simp [h, ih, List.isEmpty_iff]
      omega
    · simp [h, ih, List.isEmpty_iff]

/-- Claim C3: the diversity score of a candidate against a list of existing
concepts equals the number of existing concepts whose lowercase
whitespace-tokenized word set shares no token with the candidate, and
appending another token-disjoint existing concept never decreases the
score. -/
theorem diversity_score_count_and_monotone (c : String) (existing : List String) :
    diversityScore c existing =
      (existing.filter (fun e => (sharedTokens c e).isEmpty)).length ∧
    ∀ e : String, sharedTokens c e = [] →
      diversityScore c existing ≤ diversityScore c (existing ++ [e]) := by
  constructor
  · simpa using diversityScore_foldl c existing 0
  · intro e he
    have h1 := diversityScore_foldl c existing 0
    have h2 := diversityScore_foldl c (existing ++ [e]) 0
    simp only [diversityScore] at *
    rw [h1, h2, List.filter_append]
    simp [he, List.isEmpty_iff]

/-- Witness for C3 at a concrete input. -/
theorem diversity_score_monotone_witness :
    sharedTokens "ocean" "sky" = [] ∧
    diversityScore "ocean" ["blue"] ≤ diversityScore "ocean" (["blue"] ++ ["sky"]) :=
  ⟨by decide, (diversity_score_count_and_monotone "ocean" ["blue"]).2 "sky" (by decide)⟩

/-! ## Concept Graph (a networkx DiGraph as the program uses it)

Nodes and edges are kept in insertion order; add_node and add_edge are
idempotent, and add_edge inserts missing endpoints, as networkx does. -/

structure ConceptGraph where
  nodes : List String
  edges : List (String × String)
deriving DecidableEq

/-- graph.add_node(n). -/
def addNode (g : ConceptGraph) (n : String) : ConceptGraph :=
  if n ∈ g.nodes then g else { g with nodes := g.nodes ++ [n] }

/-- graph.add_edge(u, v): inserts missing endpoints, then the edge. -/
def addEdge (g : ConceptGraph) (u v : String) : ConceptGraph :=
  let g1 := addNode (addNode g u) v
  if (u, v) ∈ g1.edges then g1 else { g1 with edges := g1.edges ++ [(u, v)] }

/-- graph.successors(n), in edge-insertion order. -/
def successors (g : ConceptGraph) (n : String) : List String :=
  (g.edges.filter (fun e => e.1 == n)).map (fun e => e.2)

/-- The nodes with in-degree zero, in node-insertion order
(explorer.py:200, 413). -/
def rootsOf (g : ConceptGraph) : List String :=
  g.nodes.filter (fun n => (g.edges.filter (fun e => e.2 == n)).isEmpty)

/-! ## Generator Gateway: parsing and filtering (explorer.py:129-156) -/

/-- The bracketed substring response[response.find("["):response.rfind("]")+1]
(explorer.py:132); meaningful when both brackets occur in the response. -/
def extractJson (response : String) : String :=
  let cs := response.data
  let i := cs.findIdx (fun c => c == '[')
  let j := cs.length - 1 - cs.reverse.findIdx (fun c => c == ']')
  String.mk ((cs.take (j + 1)).drop i)

/-- explorer.py:138-140: truncate a decoded concept that exceeds the
display-width budget term_width // 3 to budget - 3 characters plus "...".
The slice bound budget - 3 is Python integer arithmetic and can be
negative, in which case rc[:budget-3] removes characters from the end. -/
def truncateForDisplay (tw : Nat) (rc : String) : String :=
  if tw / 3 < rc.length then pyStrSlice rc 0 (((tw / 3 : Nat) : Int) - 3) ++ "..." else rc

/-- explorer.py:136-145: drop entries that strip to empty or are
case-insensitively equal to a seen concept; keep the rest (after the
display truncation) in order. -/
def filterConcepts (tw : Nat) (seen : List String) : List String → List String
  | [] => []
  | rc0 :: rest =>
    let rc := truncateForDisplay tw rc0
    if pyStrip rc = "" ∨ pyLower rc ∈ seen.map pyLower then filterConcepts tw seen rest
    else rc :: filterConcepts tw seen rest

/-- explorer.py:129-156: bracket scan, abstract JSON decode (none models a
json.loads failure or a decoded value that is not a list of strings, both
absorbed by the except branch), then post-filtering.  Any failure path
returns the empty list. -/
def parseRelated (decode : String → Option (List String)) (tw : Nat)
    (response : String) (seen : List String) : List String :=
  if response.data.contains '[' ∧ response.data.contains ']' then
    match decode (extractJson response) with
    | some arr => filterConcepts tw seen arr
    | none => []
  else []

/-- Result of one get_related_concepts call: the returned candidates, the
updated seen set and current-concept marker, and whether the generation
backend was consulted (query_ollama reached). -/
structure GateResult where
  candidates : List String
  seen : List String
  current : Option String
  queried : Bool
deriving DecidableEq

/-- get_related_concepts (explorer.py:82-156).  The oracle abstracts
query_ollama on the prompt built from the concept and the full path
(path + [concept]); its output is the raw response text (including the
"[]" text returned on transport failure or unavailable model, which are
just particular oracle outputs here).  The guard of line 84 returns
immediately without touching state; otherwise the concept is marked seen
and current before the backend is consulted. -/
def getRelatedConcepts (decode : String → Option (List String)) (tw : Nat)
    (oracle : String → List String → String) (concept : String) (depth : Nat)
    (path : List String) (seen : List String) (current : Option String) : GateResult :=
  if concept ∈ seen ∨ 5 < depth then ⟨[], seen, current, false⟩
  else
    let seen' := seen ++ [concept]
    let response := oracle concept (path ++ [concept])
    ⟨parseRelated decode tw response seen', seen', some concept, true⟩

/-! ## Generator Gateway lemmas -/

theorem pySlice_zero_length {α : Type} (l : List α) (b : Int) :
    (pySlice l 0 b).length = min (pyIdx l.length b) l.length := by
  simp [pySlice, pyIdx]

theorem strMk_length (l : List Char) : (String.mk l).length = l.length := rfl

theorem filterConcepts_mem (tw : Nat) (seen : List String) :
    ∀ (arr : List String) (rc : String), rc ∈ filterConcepts tw seen arr →
      pyStrip rc ≠ "" ∧ pyLower rc ∉ seen.map pyLower ∧
        (3 ≤ tw / 3 → rc.length ≤ tw / 3) := by
  intro arr
  induction arr with
  | nil => intro rc h; simp [filterConcepts] at h
  | cons rc0 rest ih =>
    intro rc h
    simp only [filterConcepts] at h
    split at h
    · exact ih rc h
    · next hkeep =>
      push_neg at hkeep
      rcases List.mem_cons.mp h with heq | hmem
      · subst heq
        refine ⟨hkeep.1, hkeep.2, ?_⟩
        intro h3
        simp only [truncateForDisplay]
        split
        · next hlong =>
          have hlen : (pyStrSlice rc0 0 (((tw / 3 : Nat) : Int) - 3)).length ≤ tw / 3 - 3 := by
            have h1 : (pyStrSlice rc0 0 (((tw / 3 : Nat) : Int) - 3)).length =
                min (pyIdx rc0.data.length (((tw / 3 : Nat) : Int) - 3)) rc0.data.length := by
              simpa [pyStrSlice, strMk_length] using
                pySlice_zero_length rc0.data (((tw / 3 : Nat) : Int) - 3)
            have h2 : pyIdx rc0.data.length (((tw / 3 : Nat) : Int) - 3) ≤ tw / 3 - 3 := by
              simp only [pyIdx]
              split
              · omega
              · simp only [min_le_iff]
                left
                omega
            omega
          have h4 : (pyStrSlice rc0 0 (((tw / 3 : Nat) : Int) - 3) ++ "...").length =
              (pyStrSlice rc0 0 (((tw / 3 : Nat) : Int) - 3)).length + 3 := by
            rw [String.length_append]
            norm_num
            decide
          omega
        · next hshort => omega
      · exact ih rc hmem

theorem parseRelated_mem (decode : String → Option (List String)) (tw : Nat)
    (response : String) (seen : List String) :
    ∀ rc ∈ parseRelated decode tw response seen,
      pyStrip rc ≠ "" ∧ pyLower rc ∉ seen.map pyLower ∧
        (3 ≤ tw / 3 → rc.length ≤ tw / 3) := by
  intro rc h
  simp only [parseRelated] at h
  split at h
  · cases hdec : decode (extractJson response) with
    | none => rw [hdec] at h; simp at h
    | some arr => rw [hdec] at h; exact filterConcepts_mem tw seen arr rc h
  · simp at h

theorem parseRelated_malformed (decode : String → Option (List String)) (tw : Nat)
    (response : String) (seen : List String)
    (h : ¬(response.data.contains '[' = true ∧ response.data.contains ']' = true) ∨
      decode (extractJson response) = none) :
    parseRelated decode tw response seen = [] := by
  simp only [parseRelated]
  rcases h with h | h
  · split
    · next hc => exact absurd hc h
    · rfl
  · split
    · rw [h]
    · rfl

/-! ## Claim C6 -/

/-- Claim C6 (amended): every candidate returned by the Generator Gateway
post-filter is, unconditionally, non-empty after stripping whitespace and
not case-insensitively equal to any concept seen at call time; provided
the display-width budget term_width // 3 is at least 3, it also has
length at most that budget (an entry exceeding the budget being cut to
budget - 3 characters plus a 3-character ellipsis).  For budgets below 3
the Python slice rc[:budget-3] instead removes characters from the end of
the entry and the appended ellipsis can push the result over the budget,
hence the hypothesis on the length conjunct only. -/
theorem gateway_postfilter_props (decode : String → Option (List String)) (tw : Nat)
    (oracle : String → List String → String) (concept : String) (depth : Nat)
    (path seen : List String) (current : Option String) (rc : String)
    (hm : rc ∈ (getRelatedConcepts decode tw oracle concept depth path seen current).candidates) :
    pyStrip rc ≠ "" ∧ pyLower rc ∉ seen.map pyLower ∧ (3 ≤ tw / 3 → rc.length ≤ tw / 3) := by
  unfold getRelatedConcepts at hm
  split at hm
  · simp at hm
  · simp only at hm
    have h := parseRelated_mem decode tw
      (oracle concept (path ++ [concept])) (seen ++ [concept]) rc hm
    refine ⟨h.1, ?_, h.2.2⟩
    intro hmem
    exact h.2.1 (by rw [List.map_append]; exact List.mem_append_left _ hmem)

/-- Witness for C6 at a concrete input, exercising both the unconditional
clauses and the length clause under its budget hypothesis. -/
theorem gateway_postfilter_witness :
    "hello" ∈ (getRelatedConcepts (fun _ => some ["hello"]) 30
      (fun _ _ => "[x]") "seed" 0 [] [] none).candidates ∧
    (pyStrip "hello" ≠ "" ∧ pyLower "hello" ∉ ([] : List String).map pyLower ∧
      (3 ≤ 30 / 3 → "hello".length ≤ 30 / 3)) :=
  ⟨by decide,
    gateway_postfilter_props (fun _ => some ["hello"]) 30 (fun _ _ => "[x]")
      "seed" 0 [] [] none "hello" (by decide)⟩

/-- Counterexample to claim C6 as stated: with terminal width 3 the budget
is 1, and the decoded entry "abcd" is turned into "ab..." (Python
"abcd"[:-2] plus the ellipsis) of length 5, which exceeds the budget. -/
theorem gateway_truncation_small_budget :
    (getRelatedConcepts (fun _ => some ["abcd"]) 3
      (fun _ _ => "[x]") "seed" 0 [] [] none).candidates = ["ab..."] ∧
    ¬("ab..." : String).length ≤ 3 / 3 := by
  decide

/-! ## Exploration Engine state (build_concept_web, explorer.py:348-396) -/

/-- The mutable run state of a ConceptExplorer during build_concept_web:
the graph, the seen-as-source set (kept in insertion order; Python uses an
unordered set, and only membership is ever consumed), the
current/last-added markers, the BFS queue of (concept, depth, path)
entries, and a ghost log of the expansions that actually consulted the
generation backend, recorded as (concept, depth) in order. -/
structure WebState where
  graph : ConceptGraph
  seen : List String
  current : Option String
  lastAdded : Option String
  queue : List (String × Nat × List String)
  expLog : List (String × Nat)
deriving DecidableEq

/-- The loop body of explorer.py:375-387 for one filtered candidate:
add the node if absent (marking it last added), add the discovery edge,
and enqueue the candidate one level deeper with the extended path. -/
def addRelated (concept : String) (depth : Nat) (path : List String)
    (st : WebState) (rel : String) : WebState :=
  let st1 := if rel ∈ st.graph.nodes then st
    else { st with graph := addNode st.graph rel, lastAdded := some rel }
  { st1 with
    graph := addEdge st1.graph concept rel
    queue := st1.queue ++ [(rel, depth + 1, path ++ [concept])] }

/-- One iteration of the while loop of build_concept_web
(explorer.py:355-390): dequeue, skip expansion at depth >= max_depth, call
the gateway, optionally reorder by diversity, then add every candidate.
Rendering refreshes and sleeps have no effect on this state and are
dropped. -/
def buildStep (decode : String → Option (List String)) (tw : Nat)
    (oracle : String → List String → String) (reorderDraw : Bool) (maxDepth : Nat)
    (s : WebState) : WebState :=
  match s.queue with
  | [] => s
  | (concept, depth, path) :: rest =>
    if maxDepth ≤ depth then { s with queue := rest }
    else
      let r := getRelatedConcepts decode tw oracle concept depth path s.seen s.current
      let related := reorderCandidates reorderDraw r.candidates r.seen
      let s1 : WebState :=
        { s with
          queue := rest
          seen := r.seen
          current := r.current
          expLog := if r.queried then s.expLog ++ [(concept, depth)] else s.expLog }
      related.foldl (addRelated concept depth path) s1

/-- The state after explorer.py:350-353: root node inserted, root entry
enqueued at depth 0 with the empty path. -/
def initState (root : String) : WebState :=
  { graph := addNode ⟨[], []⟩ root, seen := [], current := none,
    lastAdded := none, queue := [(root, 0, [])], expLog := [] }

/-- Run the while loop for at most fuel iterations (the loop stops when
the queue empties; fuel makes the recursion well-founded).  draws is the
injected stream of per-step random-draw outcomes. -/
def buildRun (decode : String → Option (List String)) (tw : Nat)
    (oracle : String → List String → String) (draws : Nat → Bool) (maxDepth : Nat) :
    Nat → WebState → WebState
  | 0, s => s
  | fuel + 1, s =>
    if s.queue.isEmpty then s
    else buildRun decode tw oracle (fun n => draws (n + 1)) maxDepth fuel
      (buildStep decode tw oracle (draws 0) maxDepth s)

/-! ## Claim C10 -/

/-- Claim C10: when an expansion proceeds (concept not yet seen, depth at
most 5), the concept is added to the seen set and recorded as current
whatever the backend then returns (including failure responses), and any
later gateway call for a concept already in the seen set returns the
empty list with no backend contact and no state change. -/
theorem failed_expansion_not_retried (decode : String → Option (List String)) (tw : Nat)
    (oracle : String → List String → String) (concept : String) (depth : Nat)
    (path seen : List String) (current : Option String)
    (h1 : concept ∉ seen) (h2 : depth ≤ 5) :
    concept ∈ (getRelatedConcepts decode tw oracle concept depth path seen current).seen ∧
    (getRelatedConcepts decode tw oracle concept depth path seen current).current =
      some concept ∧
    (getRelatedConcepts decode tw oracle concept depth path seen current).queried = true ∧
    ∀ (depth2 : Nat) (path2 seen2 : List String) (current2 : Option String),
      concept ∈ seen2 →
      getRelatedConcepts decode tw oracle concept depth2 path2 seen2 current2 =
        ⟨[], seen2, current2, false⟩ := by
  have hguard : ¬(concept ∈ seen ∨ 5 < depth) := by
    push_neg
    exact ⟨h1, by omega⟩
  refine ⟨?_, ?_, ?_, ?_⟩
  · simp [getRelatedConcepts, hguard]
  · simp [getRelatedConcepts, hguard]
  · simp [getRelatedConcepts, hguard]
  · intro depth2 path2 seen2 current2 hmem
    simp [getRelatedConcepts, hmem]

/-- Witness for C10 at a concrete input: a first call whose backend
response is malformed (zero candidates) still marks the concept seen, and
the retry returns empty without consulting the backend. -/
theorem failed_expansion_not_retried_witness :
    ("A" ∉ ([] : List String)) ∧
    "A" ∈ (getRelatedConcepts (fun _ => none) 80 (fun _ _ => "no json") "A" 0 [] [] none).seen ∧
    getRelatedConcepts (fun _ => none) 80 (fun _ _ => "no json") "A" 1 [] ["A"] (some "A") =
      ⟨[], ["A"], some "A", false⟩ := by
  refine ⟨by decide, ?_, ?_⟩
  · exact (failed_expansion_not_retried (fun _ => none) 80 (fun _ _ => "no json")
      "A" 0 [] [] none (by decide) (by decide)).1
  · exact (failed_expansion_not_retried (fun _ => none) 80 (fun _ _ => "no json")
      "A" 0 [] [] none (by decide) (by decide)).2.2.2 1 [] ["A"] (some "A") (by decide)

/-! ## Claim C5 -/

theorem getRelated_malformed (decode : String → Option (List String)) (tw : Nat)
    (oracle : String → List String → String) (concept : String) (depth : Nat)
    (path seen : List String) (current : Option String)
    (hbad : ¬((oracle concept (path ++ [concept])).data.contains '[' = true ∧
        (oracle concept (path ++ [concept])).data.contains ']' = true) ∨
      decode (extractJson (oracle concept (path ++ [concept]))) = none) :
    (getRelatedConcepts decode tw oracle concept depth path seen current).candidates = [] := by
  unfold getRelatedConcepts
  split
  · rfl
  · simp only
    exact parseRelated_malformed decode tw _ _ hbad

/-- Claim C5: if the generation response for the dequeued concept has no
bracket pair, or the bracketed substring fails to decode as an array of
strings (decode = none), the gateway returns zero candidates, and the
loop iteration for that concept adds no node and no edge to the graph and
enqueues no children. -/
theorem malformed_response_yields_no_children (decode : String → Option (List String))
    (tw : Nat) (oracle : String → List String → String) (reorderDraw : Bool)
    (maxDepth : Nat) (s : WebState) (concept : String) (depth : Nat)
    (path : List String) (rest : List (String × Nat × List String))
    (hq : s.queue = (concept, depth, path) :: rest)
    (hbad : ¬((oracle concept (path ++ [concept])).data.contains '[' = true ∧
        (oracle concept (path ++ [concept])).data.contains ']' = true) ∨
      decode (extractJson (oracle concept (path ++ [concept]))) = none) :
    (getRelatedConcepts decode tw oracle concept depth path s.seen s.current).candidates = [] ∧
    (buildStep decode tw oracle reorderDraw maxDepth s).graph = s.graph ∧
    (buildStep decode tw oracle reorderDraw maxDepth s).queue = rest := by
  have hcand := getRelated_malformed decode tw oracle concept depth path s.seen s.current hbad
  refine ⟨hcand, ?_⟩
  simp only [buildStep, hq]
  split
  · exact ⟨rfl, rfl⟩
  · simp only [hcand, reorderCandidates]
    simp [List.foldl]

/-- Witness for C5 at a concrete input: a bracketless response on the
initial state. -/
theorem malformed_response_witness :
    (initState "A").queue = [("A", 0, [])] ∧
    ((¬(("no json" : String).data.contains '[' = true ∧
        ("no json" : String).data.contains ']' = true)) ∨
      (fun (_ : String) => (none : Option (List String))) (extractJson "no json") = none) ∧
    (getRelatedConcepts (fun _ => none) 80 (fun _ _ => "no json") "A" 0 []
      (initState "A").seen (initState "A").current).candidates = [] ∧
    (buildStep (fun _ => none) 80 (fun _ _ => "no json") false 3 (initState "A")).graph =
      (initState "A").graph ∧
    (buildStep (fun _ => none) 80 (fun _ _ => "no json") false 3 (initState "A")).queue = [] := by
  refine ⟨by decide, by decide, ?_⟩
  exact malformed_response_yields_no_children (fun _ => none) 80 (fun _ _ => "no json")
    false 3 (initState "A") "A" 0 [] [] (by decide) (by decide)

/-! ## Claim C4: the seen-as-source guard and absolute depth ceiling -/

theorem addRelated_untouched (concept : String) (depth : Nat) (path : List String)
    (st : WebState) (rel : String) :
    (addRelated concept depth path st rel).seen = st.seen ∧
    (addRelated concept depth path st rel).expLog = st.expLog := by
  simp only [addRelated]
  split <;> simp

theorem foldAdd_fields (concept : String) (depth : Nat) (path : List String) :
    ∀ (l : List String) (st : WebState),
      ((l.foldl (addRelated concept depth path) st).seen = st.seen ∧
       (l.foldl (addRelated concept depth path) st).expLog = st.expLog) := by
  intro l
  induction l with
  | nil => intro st; exact ⟨rfl, rfl⟩
  | cons x xs ih =>
    intro st
    simp only [List.foldl_cons]
    constructor
    · rw [(ih _).1, (addRelated_untouched concept depth path st x).1]
    · rw [(ih _).2, (addRelated_untouched concept depth path st x).2]

/-- Case analysis of the guard of get_related_concepts (explorer.py:84). -/
theorem getRelated_cases (decode : String → Option (List String)) (tw : Nat)
    (oracle : String → List String → String) (concept : String) (depth : Nat)
    (path seen : List String) (current : Option String) :
    (getRelatedConcepts decode tw oracle concept depth path seen current =
        ⟨[], seen, current, false⟩) ∨
    (concept ∉ seen ∧ depth ≤ 5 ∧
      (getRelatedConcepts decode tw oracle concept depth path seen current).seen =
        seen ++ [concept] ∧
      (getRelatedConcepts decode tw oracle concept depth path seen current).queried = true) := by
  by_cases hg : concept ∈ seen ∨ 5 < depth
  · left
    simp only [getRelatedConcepts, if_pos hg]
  · right
    push_neg at hg
    have hg2 : ¬(concept ∈ seen ∨ 5 < depth) := by
      rintro (h | h)
      · exact hg.1 h
      · omega
    refine ⟨hg.1, by omega, ?_, ?_⟩
    · simp only [getRelatedConcepts, if_neg hg2]
    · simp only [getRelatedConcepts, if_neg hg2]

/-- The run invariant behind claim C4: the logged backend expansions have
pairwise distinct source concepts, all at depth at most 5, and every
logged source is in the seen set. -/
def ExpInv (s : WebState) : Prop :=
  (s.expLog.map Prod.fst).Nodup ∧ (∀ e ∈ s.expLog, e.2 ≤ 5) ∧
    ∀ c ∈ s.expLog.map Prod.fst, c ∈ s.seen

theorem buildStep_expInv (decode : String → Option (List String)) (tw : Nat)
    (oracle : String → List String → String) (reorderDraw : Bool) (maxDepth : Nat)
    (s : WebState) (h : ExpInv s) :
    ExpInv (buildStep decode tw oracle reorderDraw maxDepth s) := by
  obtain ⟨h1, h2, h3⟩ := h
  rcases hq : s.queue with _ | ⟨⟨concept, depth, path⟩, rest⟩
  · simp only [buildStep, hq]
    exact ⟨h1, h2, h3⟩
  · simp only [buildStep, hq]
    split
    · exact ⟨h1, h2, h3⟩
    · have hf := foldAdd_fields concept depth path
        (reorderCandidates reorderDraw
          (getRelatedConcepts decode tw oracle concept depth path s.seen s.current).candidates
          (getRelatedConcepts decode tw oracle concept depth path s.seen s.current).seen)
      rcases getRelated_cases decode tw oracle concept depth path s.seen s.current with
        hcase | ⟨hnotseen, hdepth, hseen, hq2⟩
      · refine ⟨?_, ?_, ?_⟩
        · rw [(hf _).2]
          simp only [hcase]
          exact h1
        · rw [(hf _).2]
          simp only [hcase]
          exact h2
        · intro c hc
          rw [(hf _).1]
          rw [(hf _).2] at hc
          simp only [hcase] at hc ⊢
          exact h3 c hc
      · refine ⟨?_, ?_, ?_⟩
        · rw [(hf _).2]
          simp only [hq2, if_pos]
          rw [List.map_append]
          simp only [List.map_cons, List.map_nil]
          rw [List.nodup_append]
          refine ⟨h1, List.nodup_singleton concept, ?_⟩
          intro a ha hb
          simp only [List.mem_singleton] at hb
          subst hb
          exact hnotseen (h3 a ha)
        · rw [(hf _).2]
          simp only [hq2, if_pos]
          intro e he
          rcases List.mem_append.mp he with he | he
          · exact h2 e he
          · simp only [List.mem_singleton] at he
            subst he
            exact hdepth
        · intro c hc
          rw [(hf _).1]
          rw [(hf _).2] at hc
          simp only [hq2, if_pos, hseen] at hc ⊢
          rw [List.map_append] at hc
          rcases List.mem_append.mp hc with hc | hc
          · exact List.mem_append_left _ (h3 c hc)
          · simp only [List.map_cons, List.map_nil, List.mem_singleton] at hc
            rw [hc]
            exact List.mem_append_right _ (List.mem_singleton_self concept)

theorem buildRun_expInv (decode : String → Option (List String)) (tw : Nat)
    (oracle : String → List String → String) (maxDepth : Nat) :
    ∀ (fuel : Nat) (draws : Nat → Bool) (s : WebState), ExpInv s →
      ExpInv (buildRun decode tw oracle draws maxDepth fuel s) := by
  intro fuel
  induction fuel with
  | zero => intro draws s h; exact h
  | succ n ih =>
    intro draws s h
    simp only [buildRun]
    split
    · exact h
    · exact ih _ _ (buildStep_expInv decode tw oracle (draws 0) maxDepth s h)

/-- Claim C4: in any run of the exploration loop (any backend oracle, any
decoder, any random draws, any configured maxDepth, any fuel), no concept
is ever expanded as a BFS source more than once, and every expansion that
consults the backend happens at depth at most 5, the absolute ceiling of
the guard in explorer.py:84. -/
theorem exploration_no_reexpansion_depth_ceiling (decode : String → Option (List String))
    (tw : Nat) (oracle : String → List String → String) (draws : Nat → Bool)
    (maxDepth : Nat) (root : String) (fuel : Nat) :
    ((buildRun decode tw oracle draws maxDepth fuel (initState root)).expLog.map
      Prod.fst).Nodup ∧
    ∀ e ∈ (buildRun decode tw oracle draws maxDepth fuel (initState root)).expLog,
      e.2 ≤ 5 := by
  have h : ExpInv (initState root) := by
    refine ⟨?_, ?_, ?_⟩ <;> simp [initState]
  have := buildRun_expInv decode tw oracle maxDepth fuel draws (initState root) h
  exact ⟨this.1, this.2.1⟩

/-! ## Claim C9: acyclicity of the concept graph

The measure: the position of a concept in the (insertion-ordered) seen
set, with the list length for concepts not yet seen.  Every edge ever
added goes from a seen source to a target strictly later in that order,
and the order of existing elements is never disturbed because the seen
set only grows by appending. -/

/-- Position of a in l, or l.length when absent. -/
def idx : List String → String → Nat
  | [], _ => 0
  | b :: l, a => if b = a then 0 else idx l a + 1

theorem idx_lt_length {l : List String} {a : String} (h : a ∈ l) : idx l a < l.length := by
  induction l with
  | nil => simp at h
  | cons b l ih =>
    simp only [idx]
    split
    · simp
    · next hne =>
      have : a ∈ l := by
        rcases List.mem_cons.mp h with h | h
        · exact absurd h.symm hne
        · exact h
      have := ih this
      simp only [List.length_cons]
      omega

theorem idx_of_not_mem {l : List String} {a : String} (h : a ∉ l) : idx l a = l.length := by
  induction l with
  | nil => rfl
  | cons b l ih =>
    simp only [idx]
    split
    · next he => exact absurd (he ▸ List.mem_cons_self b l) h
    · have : a ∉ l := fun hm => h (List.mem_cons_of_mem b hm)
      simp [ih this]

theorem idx_append_left {l : List String} {a : String} (h : a ∈ l) (m : List String) :
    idx (l ++ m) a = idx l a := by
  induction l with
  | nil => simp at h
  | cons b l ih =>
    simp only [List.cons_append, idx]
    split
    · rfl
    · next hne =>
      have : a ∈ l := by
        rcases List.mem_cons.mp h with h | h
        · exact absurd h.symm hne
        · exact h
      exact congrArg (fun n => n + 1) (ih this)

theorem idx_append_right {l : List String} {a : String} (h : a ∉ l) (m : List String) :
    idx (l ++ m) a = l.length + idx m a := by
  induction l with
  | nil => simp
  | cons b l ih =>
    simp only [List.cons_append, idx]
    split
    · next he => exact absurd (he ▸ List.mem_cons_self b l) h
    · have : a ∉ l := fun hm => h (List.mem_cons_of_mem b hm)
      have h2 : idx (l.append m) a = l.length + idx m a := ih this
      simp only [List.length_cons]
      omega

/-- A directed walk along graph edges. -/
def EdgeChain (g : ConceptGraph) : List String → Prop
  | [] => True
  | [_] => True
  | a :: b :: rest => (a, b) ∈ g.edges ∧ EdgeChain g (b :: rest)

/-- No directed walk returns to its start: no directed cycle (a self-loop
is the case l = []). -/
def AcyclicCG (g : ConceptGraph) : Prop :=
  ∀ (a : String) (l : List String), ¬ EdgeChain g (a :: (l ++ [a]))

theorem edgeChain_idx (g : ConceptGraph) (seen : List String)
    (hinv : ∀ e ∈ g.edges, idx seen e.1 < idx seen e.2) :
    ∀ (l : List String) (x y : String), EdgeChain g (x :: (l ++ [y])) →
      idx seen x < idx seen y := by
  intro l
  induction l with
  | nil =>
    intro x y h
    simp only [List.nil_append, EdgeChain] at h
    exact hinv (x, y) h.1
  | cons b l' ih =>
    intro x y h
    simp only [List.cons_append, EdgeChain] at h
    exact lt_trans (hinv (x, b) h.1) (ih b y h.2)

theorem acyclic_of_measure (g : ConceptGraph) (seen : List String)
    (hinv : ∀ e ∈ g.edges, idx seen e.1 < idx seen e.2) : AcyclicCG g := by
  intro a l h
  exact lt_irrefl _ (edgeChain_idx g seen hinv l a a h)

/-! Auxiliary membership lemmas for the reordering and the graph ops. -/

theorem mem_insertByKey (key : String → Nat) (x : String) :
    ∀ (l : List String) (y : String), y ∈ insertByKey key x l → y = x ∨ y ∈ l := by
  intro l
  induction l with
  | nil =>
    intro y h
    simp only [insertByKey, List.mem_singleton] at h
    exact Or.inl h
  | cons z zs ih =>
    intro y h
    simp only [insertByKey] at h
    split at h
    · rcases List.mem_cons.mp h with h | h
      · exact Or.inr (h ▸ List.mem_cons_self z zs)
      · rcases ih y h with h | h
        · exact Or.inl h
        · exact Or.inr (List.mem_cons_of_mem z h)
    · rcases List.mem_cons.mp h with h | h
      · exact Or.inl h
      · exact Or.inr h

theorem mem_sortByKey (key : String → Nat) :
    ∀ (l : List String) (y : String), y ∈ sortByKey key l → y ∈ l := by
  intro l
  induction l with
  | nil => intro y h; simp [sortByKey] at h
  | cons x xs ih =>
    intro y h
    simp only [sortByKey] at h
    rcases mem_insertByKey key x _ y h with h | h
    · exact h ▸ List.mem_cons_self x xs
    · exact List.mem_cons_of_mem x (ih y h)

theorem mem_reorderCandidates (reorderDraw : Bool) (cands seen : List String) (y : String)
    (h : y ∈ reorderCandidates reorderDraw cands seen) : y ∈ cands := by
  simp only [reorderCandidates] at h
  split at h
  · exact mem_sortByKey _ cands y h
  · exact h

theorem addNode_edges (g : ConceptGraph) (n : String) : (addNode g n).edges = g.edges := by
  simp only [addNode]
  split <;> rfl

theorem addEdge_edges_mem (g : ConceptGraph) (u v : String) :
    ∀ e ∈ (addEdge g u v).edges, e ∈ g.edges ∨ e = (u, v) := by
  intro e he
  simp only [addEdge] at he
  split at he
  · left
    rwa [addNode_edges, addNode_edges] at he
  · simp only at he
    rw [addNode_edges, addNode_edges] at he
    rcases List.mem_append.mp he with h | h
    · exact Or.inl h
    · right
      simpa using h

theorem addRelated_edges_mem (concept : String) (depth : Nat) (path : List String)
    (st : WebState) (rel : String) :
    ∀ e ∈ (addRelated concept depth path st rel).graph.edges,
      e ∈ st.graph.edges ∨ e = (concept, rel) := by
  intro e he
  simp only [addRelated] at he
  by_cases hrel : rel ∈ st.graph.nodes
  · simp only [if_pos hrel] at he
    exact addEdge_edges_mem st.graph concept rel e he
  · simp only [if_neg hrel] at he
    rcases addEdge_edges_mem _ concept rel e he with h | h
    · left
      rwa [addNode_edges] at h
    · exact Or.inr h

theorem foldAdd_graphInv (concept : String) (depth : Nat) (path : List String) :
    ∀ (rels : List String) (st : WebState),
      (∀ e ∈ st.graph.edges, e.1 ∈ st.seen ∧ idx st.seen e.1 < idx st.seen e.2) →
      concept ∈ st.seen →
      (∀ v ∈ rels, v ∉ st.seen) →
      ∀ e ∈ (rels.foldl (addRelated concept depth path) st).graph.edges,
        e.1 ∈ st.seen ∧ idx st.seen e.1 < idx st.seen e.2 := by
  intro rels
  induction rels with
  | nil => intro st hinv hc hrels e he; exact hinv e he
  | cons v rest ih =>
    intro st hinv hc hrels e he
    simp only [List.foldl_cons] at he
    have hvnot : v ∉ st.seen := hrels v (List.mem_cons_self v rest)
    have hseen1 : (addRelated concept depth path st v).seen = st.seen :=
      (addRelated_untouched concept depth path st v).1
    have hinv1 : ∀ e ∈ (addRelated concept depth path st v).graph.edges,
        e.1 ∈ st.seen ∧ idx st.seen e.1 < idx st.seen e.2 := by
      intro e1 he1
      rcases addRelated_edges_mem concept depth path st v e1 he1 with h | h
      · exact hinv e1 h
      · subst h
        refine ⟨hc, ?_⟩
        have h1 := idx_lt_length hc
        have h2 := idx_of_not_mem hvnot
        simp only
        omega
    have := ih (addRelated concept depth path st v)
      (by rw [hseen1]; exact hinv1) (by rw [hseen1]; exact hc)
      (by rw [hseen1]; intro v2 hv2; exact hrels v2 (List.mem_cons_of_mem v hv2)) e he
    rwa [hseen1] at this

/-- Lemma: a member of a list is still case-insensitively present after
mapping pyLower, so a candidate whose lowercase form avoids the mapped
seen list is not in the seen list. -/
theorem not_mem_of_pyLower_not_mem {v : String} {seen : List String}
    (h : pyLower v ∉ seen.map pyLower) : v ∉ seen := by
  intro hv
  exact h (List.mem_map_of_mem pyLower hv)

/-- The graph invariant giving acyclicity: each edge source is seen, and
each edge increases the seen-insertion-order measure. -/
def GraphInv (s : WebState) : Prop :=
  ∀ e ∈ s.graph.edges, e.1 ∈ s.seen ∧ idx s.seen e.1 < idx s.seen e.2

theorem inv_extend (seen : List String) (c : String) (E : List (String × String))
    (h : ∀ e ∈ E, e.1 ∈ seen ∧ idx seen e.1 < idx seen e.2) :
    ∀ e ∈ E, e.1 ∈ seen ++ [c] ∧ idx (seen ++ [c]) e.1 < idx (seen ++ [c]) e.2 := by
  intro e he
  obtain ⟨h1, h2⟩ := h e he
  refine ⟨List.mem_append_left _ h1, ?_⟩
  rw [idx_append_left h1]
  by_cases hb : e.2 ∈ seen
  · rw [idx_append_left hb]
    exact h2
  · rw [idx_append_right hb]
    have := idx_lt_length h1
    omega

theorem foldAdd_graphInv_wrt (concept : String) (depth : Nat) (path : List String)
    (rels : List String) (st : WebState)
    (h1 : ∀ e ∈ st.graph.edges, e.1 ∈ st.seen ∧ idx st.seen e.1 < idx st.seen e.2)
    (h2 : concept ∈ st.seen)
    (h3 : ∀ v ∈ rels, v ∉ st.seen) :
    GraphInv (rels.foldl (addRelated concept depth path) st) := by
  intro e he
  rw [(foldAdd_fields concept depth path rels st).1]
  exact foldAdd_graphInv concept depth path rels st h1 h2 h3 e he

theorem getRelated_candidates_eq (decode : String → Option (List String)) (tw : Nat)
    (oracle : String → List String → String) (concept : String) (depth : Nat)
    (path seen : List String) (current : Option String)
    (h : ¬(concept ∈ seen ∨ 5 < depth)) :
    (getRelatedConcepts decode tw oracle concept depth path seen current).candidates =
      parseRelated decode tw (oracle concept (path ++ [concept])) (seen ++ [concept]) := by
  simp only [getRelatedConcepts, if_neg h]

theorem buildStep_graphInv (decode : String → Option (List String)) (tw : Nat)
    (oracle : String → List String → String) (reorderDraw : Bool) (maxDepth : Nat)
    (s : WebState) (h : GraphInv s) :
    GraphInv (buildStep decode tw oracle reorderDraw maxDepth s) := by
  rcases hq : s.queue with _ | ⟨⟨concept, depth, path⟩, rest⟩
  · simp only [buildStep, hq]
    exact h
  · simp only [buildStep, hq]
    split
    · exact h
    · rcases getRelated_cases decode tw oracle concept depth path s.seen s.current with
        hcase | ⟨hnotseen, hdepth, hseen, hq2⟩
      · simp only [hcase, reorderCandidates, List.isEmpty_nil, Bool.not_true,
          Bool.and_false, if_neg, ite_false, List.foldl_nil]
        exact h
      · have hguard : ¬(concept ∈ s.seen ∨ 5 < depth) := by
          rintro (hh | hh)
          · exact hnotseen hh
          · omega
        have hcand := getRelated_candidates_eq decode tw oracle concept depth path
          s.seen s.current hguard
        refine foldAdd_graphInv_wrt concept depth path _ _ ?_ ?_ ?_
        · dsimp only
          rw [hseen]
          exact inv_extend s.seen concept s.graph.edges h
        · dsimp only
          rw [hseen]
          exact List.mem_append_right _ (List.mem_singleton_self concept)
        · intro v hv
          dsimp only
          rw [hseen]
          have hvc := mem_reorderCandidates reorderDraw _ _ v hv
          rw [hcand] at hvc
          have hp := parseRelated_mem decode tw
            (oracle concept (path ++ [concept])) (s.seen ++ [concept]) v hvc
          exact not_mem_of_pyLower_not_mem hp.2.1

theorem buildRun_graphInv (decode : String → Option (List String)) (tw : Nat)
    (oracle : String → List String → String) (maxDepth : Nat) :
    ∀ (fuel : Nat) (draws : Nat → Bool) (s : WebState), GraphInv s →
      GraphInv (buildRun decode tw oracle draws maxDepth fuel s) := by
  intro fuel
  induction fuel with
  | zero => intro draws s h; exact h
  | succ n ih =>
    intro draws s h
    simp only [buildRun]
    split
    · exact h
    · exact ih _ _ (buildStep_graphInv decode tw oracle (draws 0) maxDepth s h)

/-- Claim C9: in every state reachable by the exploration loop (any
backend oracle, any decoder, any draws, any maxDepth, any fuel), the
concept graph has no directed cycle: every edge goes from a concept that
is in the seen set to one that entered it strictly later (or never did),
because candidates case-insensitively equal to a seen concept are
filtered out before any edge is added. -/
theorem exploration_graph_acyclic (decode : String → Option (List String)) (tw : Nat)
    (oracle : String → List String → String) (draws : Nat → Bool) (maxDepth : Nat)
    (root : String) (fuel : Nat) :
    AcyclicCG (buildRun decode tw oracle draws maxDepth fuel (initState root)).graph := by
  have hinit : GraphInv (initState root) := by
    intro e he
    simp [initState, addNode] at he
  have hinv := buildRun_graphInv decode tw oracle maxDepth fuel draws (initState root) hinit
  exact acyclic_of_measure _ _ (fun e he => (hinv e he).2)

/-! ## Bounded Tree Renderer (_generate_ascii_tree, explorer.py:250-346)

Colorama codes are presentation only and are dropped; the emitted lines
keep the branch prefix, the connector and the (possibly width-truncated)
node text.  The current_depth argument of _color_node affects only the
color choice and is omitted. -/

/-- "└── " when last sibling, "├── " otherwise (explorer.py:160, 260, 425). -/
def connector (isLast : Bool) : String := if isLast then "└── " else "├── "

/-- _color_node (explorer.py:158-180) without the colors: prefix,
connector and width-truncated node text.  available_width is Python
integer arithmetic and can be negative. -/
def colorNode (tw : Nat) (node pfx : String) (isLast : Bool) : String :=
  let aw : Int := (tw : Int) - pfx.length - 4 - 5
  let node2 := if aw < (node.length : Int) then pyStrSlice node 0 (aw - 3) ++ "..." else node
  pfx ++ connector isLast ++ node2

/-- max_depth is not None and current_depth > max_depth (explorer.py:263). -/
def overDepth (maxD : Option Nat) (depth : Nat) : Bool :=
  match maxD with
  | some m => decide (m < depth)
  | none => false

/-- explorer.py:293-309: the sample of the non-focus children: when the
sample size is positive and the list does not already fit, roughly a
third from the start, a third around the middle and a third from the end,
deduplicated keeping first occurrences and truncated to the sample size. -/
def sampleThirds (nonFocus : List String) (ss : Int) : List String :=
  if 0 < ss then
    if (nonFocus.length : Int) ≤ ss then nonFocus
    else
      (dedupFirst (pySlice nonFocus 0 ((max 1 (ss.toNat / 3) : Nat) : Int) ++
        pySlice nonFocus
          ((nonFocus.length / 2 : Nat) - ((max 1 (ss.toNat / 3) : Nat) / 2 : Nat) : Int)
          ((nonFocus.length / 2 : Nat) + ((max 1 (ss.toNat / 3) : Nat) / 2 : Nat) : Int) ++
        pySlice nonFocus (-((max 1 (ss.toNat / 3) : Nat) : Int))
          (nonFocus.length : Int))).take ss.toNat
  else []

/-- explorer.py:285-316: bounded child selection when the children exceed
the remaining vertical budget rh.  Returns the selected children and the
has_more flag (Python truthiness of
len(focus_children) > len(children) or non_focus in the second branch). -/
def selectChildren (children focus : List String) (rh : Nat) : List String × Bool :=
  let focusChildren := children.filter (fun c => focus.contains c)
  let nonFocus := children.filter (fun c => !(focus.contains c))
  if focusChildren.length < rh then
    let sampled := sampleThirds nonFocus ((rh : Int) - focusChildren.length - 1)
    (focusChildren ++ sampled,
      decide (focusChildren.length + nonFocus.length > (focusChildren ++ sampled).length))
  else
    let kept := pySlice focusChildren 0 ((rh : Int) - 1)
    (kept, decide (focusChildren.length > kept.length) || !nonFocus.isEmpty)

/-- explorer.py:320-340: emit the selected children in order, threading
lines_used and stopping as soon as the budget is reached; the last
selected child only gets the last-sibling connector when no has_more
marker will follow. -/
def childLoop (H : Nat) (f : String → Bool → Nat → List String) (hasMore : Bool) :
    List String → Nat → List String
  | [], _ => []
  | c :: rest, lu =>
    f c (rest.isEmpty && !hasMore) lu ++
      (if H ≤ lu + (f c (rest.isEmpty && !hasMore) lu).length then []
       else childLoop H f hasMore rest (lu + (f c (rest.isEmpty && !hasMore) lu).length))

/-- _generate_ascii_tree (explorer.py:250-346), one emitted line per list
entry (each Python line ends in a newline, so lines_used, incremented by
the newline count, equals the number of list entries here).  fuel bounds
the recursion depth; every theorem below quantifies over it. -/
def genTree (g : ConceptGraph) (tw : Nat) :
    Nat → String → String → Bool → List String → List String → Option Nat → Nat → Nat → Nat →
      List String
  | 0, _, _, _, _, _, _, _, _, _ => []
  | fuel + 1, node, pfx, isLast, visited, focus, maxD, depth, H, lu =>
    if H ≤ lu then [pfx ++ connector isLast ++ "(...more...)"]
    else if node ∈ visited ∨ overDepth maxD depth then
      [colorNode tw node pfx isLast ++ " (...)"]
    else
      let line := colorNode tw node pfx isLast
      let children0 := successors g node
      if children0.isEmpty ∨ H ≤ lu + 1 then [line]
      else
        let nextPfx := pfx ++ (if isLast then "    " else "│   ")
        let sorted := if focus.isEmpty then children0
          else children0.filter (fun c => focus.contains c) ++
            children0.filter (fun c => !(focus.contains c))
        let sm := if H - (lu + 1) < sorted.length then selectChildren sorted focus (H - (lu + 1))
          else (sorted, false)
        let body := childLoop H
          (fun c last lu2 =>
            genTree g tw fuel c nextPfx last (node :: visited) focus maxD (depth + 1) H lu2)
          sm.2 sm.1 (lu + 1)
        line :: body ++
          (if sm.2 ∧ lu + 1 + body.length < H then [nextPfx ++ "└── (...more nodes...)"] else [])

/-! ## Plain Exporter (_plain_ascii_tree, explorer.py:420-443) -/

/-- _plain_ascii_tree: unbounded depth-first serialization, no height
limit; a node already in the per-branch visited set renders once with the
" (...)" cycle marker; each child receives a copy of the visited set
containing the current node. -/
def plainAsciiTree (g : ConceptGraph) : Nat → String → String → Bool → List String → List String
  | 0, _, _, _, _ => []
  | fuel + 1, node, pfx, isLast, visited =>
    if node ∈ visited then [pfx ++ connector isLast ++ node ++ " (...)"]
    else
      let line := pfx ++ connector isLast ++ node
      let children := successors g node
      if children.isEmpty then [line]
      else
        let nextPfx := pfx ++ (if isLast then "    " else "│   ")
        line :: (children.enum.map (fun ic =>
          plainAsciiTree g fuel ic.2 nextPfx (ic.1 == children.length - 1) (node :: visited))).flatten

/-- export_ascii_tree (explorer.py:410-448) without the file I/O: render
the first zero-in-degree node; nothing is rendered when no root exists. -/
def exportAscii (g : ConceptGraph) (fuel : Nat) : List String :=
  match rootsOf g with
  | [] => []
  | r :: _ => plainAsciiTree g fuel r "" true []

/-! ## Claim C7 -/

/-- The 3-level chain A -> B -> C. -/
def chainG : ConceptGraph := ⟨["A", "B", "C"], [("A", "B"), ("B", "C")]⟩

/-- A graph with a directed cycle A -> B -> A below the root. -/
def loopG : ConceptGraph := ⟨["R", "A", "B"], [("R", "A"), ("A", "B"), ("B", "A")]⟩

/-- A diamond: X is reachable under both A and B. -/
def diamondG : ConceptGraph := ⟨["R", "A", "B", "X"], [("R", "A"), ("R", "B"), ("A", "X"), ("B", "X")]⟩

/-- Claim C7: plain export of the chain A -> B -> C gives exactly three
lines, one per node with branch-drawing prefixes, C deepest, and no
" (...)" cycle marker on any line; a node revisited on the same
root-to-leaf path (loopG) renders once more with the cycle marker instead
of recursing; the per-branch copy of the visited set means a node shared
by two branches (diamondG) is rendered under both without a marker; and
in general a node already in the branch-local visited set emits exactly
the single marker line. -/
theorem plain_export_props :
    exportAscii chainG 10 = ["└── A", "    └── B", "        └── C"] ∧
    (∀ l ∈ exportAscii chainG 10, (" (...)" : String).data.isSuffixOf l.data = false) ∧
    exportAscii loopG 10 =
      ["└── R", "    └── A", "        └── B", "            └── A (...)"] ∧
    exportAscii diamondG 10 =
      ["└── R", "    ├── A", "    │   └── X", "    └── B", "        └── X"] ∧
    (∀ (g : ConceptGraph) (fuel : Nat) (node pfx : String) (isLast : Bool)
      (visited : List String), node ∈ visited →
      plainAsciiTree g (fuel + 1) node pfx isLast visited =
        [pfx ++ connector isLast ++ node ++ " (...)"]) := by
  refine ⟨by decide, by decide, by decide, by decide, ?_⟩
  intro g fuel node pfx isLast visited hv
  simp only [plainAsciiTree, if_pos hv]

/-- Witness for the general cycle-marker part of C7 at a concrete input. -/
theorem plain_export_cycle_witness :
    "A" ∈ ["A"] ∧
    plainAsciiTree chainG (2 + 1) "A" "" true ["A"] = ["└── A (...)"] := by
  refine ⟨by decide, ?_⟩
  rw [plain_export_props.2.2.2.2 chainG 2 "A" "" true ["A"] (by decide)]
  decide

/-! ## Claim C2: the height bound of the bounded renderer -/

theorem childLoop_bound (H : Nat) (f : String → Bool → Nat → List String) (hm : Bool)
    (hf : ∀ (c : String) (last : Bool) (lu : Nat), lu < H → lu + (f c last lu).length ≤ H) :
    ∀ (sel : List String) (lu : Nat), lu < H → lu + (childLoop H f hm sel lu).length ≤ H := by
  intro sel
  induction sel with
  | nil =>
    intro lu h
    simp only [childLoop, List.length_nil]
    omega
  | cons c rest ih =>
    intro lu h
    simp only [childLoop]
    split
    · next hle =>
      simp only [List.append_nil]
      exact hf c (rest.isEmpty && !hm) lu h
    · next hlt =>
      push_neg at hlt
      have h2 := ih (lu + (f c (rest.isEmpty && !hm) lu).length) hlt
      simp only [List.length_append]
      omega

theorem main_branch_bound (H lu : Nat) (line marker : String) (body : List String)
    (cond : Prop) [Decidable cond]
    (hb : lu + 1 + body.length ≤ H)
    (hcond : cond → lu + 1 + body.length < H) :
    lu + (line :: body ++ (if cond then [marker] else [])).length ≤ H := by
  split
  · next hc =>
    simp only [List.length_cons, List.length_append, List.length_nil]
    have := hcond hc
    omega
  · simp only [List.length_cons, List.length_append, List.length_nil]
    omega

theorem genTree_bound (g : ConceptGraph) (tw : Nat) :
    ∀ (fuel : Nat) (node pfx : String) (isLast : Bool) (visited focus : List String)
      (maxD : Option Nat) (depth H lu : Nat), lu < H →
      lu + (genTree g tw fuel node pfx isLast visited focus maxD depth H lu).length ≤ H := by
  intro fuel
  induction fuel with
  | zero =>
    intro node pfx isLast visited focus maxD depth H lu h
    simp only [genTree, List.length_nil]
    omega
  | succ n ih =>
    intro node pfx isLast visited focus maxD depth H lu h
    simp only [genTree]
    split
    · next h1 =>
      omega
    · split
      · simp only [List.length_singleton]
        omega
      · split
        · simp only [List.length_singleton]
          omega
        · next hch =>
          have hlt : lu + 1 < H := by
            rcases not_or.mp hch with ⟨-, hb2⟩
            omega
          refine main_branch_bound H lu _ _ _ _ ?_ (fun hc => hc.2)
          refine childLoop_bound H _ _ ?_ _ (lu + 1) hlt
          intro c last lu2 h2
          exact ih c _ last _ focus maxD (depth + 1) H lu2 h2

/-- Claim C2 (amended): for every concept graph, every focus list, every
max display depth, every fuel and every viewport height of at least one
line, the bounded renderer emits at most viewportHeight lines, counting
every emitted line including the cycle, depth and truncation markers.
(At viewport height 0 the renderer still emits the one truncation marker
line, which is the single corrected point.) -/
theorem render_height_bound (g : ConceptGraph) (tw fuel : Nat) (node : String)
    (focus : List String) (maxD : Option Nat) (H : Nat) (h : 1 ≤ H) :
    (genTree g tw fuel node "" true [] focus maxD 0 H 0).length ≤ H := by
  have := genTree_bound g tw fuel node "" true [] focus maxD 0 H 0 (by omega)
  omega

/-- Witness for C2 at a concrete input. -/
theorem render_height_bound_witness :
    1 ≤ 1 ∧ (genTree chainG 80 5 "A" "" true [] [] none 0 1 0).length ≤ 1 :=
  ⟨by decide, render_height_bound chainG 80 5 "A" [] none 1 (by decide)⟩

/-- Counterexample to claim C2 as stated (over every viewport height):
with available height 0 the renderer emits the one-line "(...more...)"
truncation marker, exceeding the budget. -/
theorem render_zero_viewport_counterexample :
    genTree chainG 80 5 "A" "" true [] [] none 0 0 0 = ["└── (...more...)"] ∧
    ¬(genTree chainG 80 5 "A" "" true [] [] none 0 0 0).length ≤ 0 := by
  decide

/-! ## Claim C8: bounded child selection and the has-more marker -/

theorem pySlice_subset {α : Type} (l : List α) (a b : Int) :
    ∀ x ∈ pySlice l a b, x ∈ l := by
  intro x hx
  exact List.take_subset _ _ (List.drop_subset _ _ hx)

theorem dedupFirstAux_subset :
    ∀ (seen l : List String) (x : String), x ∈ dedupFirstAux seen l → x ∈ l := by
  intro seen l
  induction l generalizing seen with
  | nil => intro x hx; simp [dedupFirstAux] at hx
  | cons y ys ih =>
    intro x hx
    simp only [dedupFirstAux] at hx
    split at hx
    · exact List.mem_cons_of_mem y (ih seen x hx)
    · rcases List.mem_cons.mp hx with hx | hx
      · exact hx ▸ List.mem_cons_self y ys
      · exact List.mem_cons_of_mem y (ih (y :: seen) x hx)

theorem sampleThirds_subset (nonFocus : List String) (ss : Int) :
    ∀ x ∈ sampleThirds nonFocus ss, x ∈ nonFocus := by
  intro x hx
  simp only [sampleThirds] at hx
  split at hx
  · split at hx
    · exact hx
    · have h1 := List.take_subset _ _ hx
      have h2 := dedupFirstAux_subset [] _ x h1
      rcases List.mem_append.mp h2 with h3 | h3
      · rcases List.mem_append.mp h3 with h4 | h4
        · exact pySlice_subset _ _ _ x h4
        · exact pySlice_subset _ _ _ x h4
      · exact pySlice_subset _ _ _ x h3
  · simp at hx

theorem sampleThirds_length (nonFocus : List String) (ss : Int) :
    (sampleThirds nonFocus ss).length ≤ ss.toNat := by
  simp only [sampleThirds]
  split
  · next hpos =>
    split
    · next hle => omega
    · have := List.length_take_le ss.toNat
        (dedupFirst (pySlice nonFocus 0 ((max 1 (ss.toNat / 3) : Nat) : Int) ++
          pySlice nonFocus
            ((nonFocus.length / 2 : Nat) - ((max 1 (ss.toNat / 3) : Nat) / 2 : Nat) : Int)
            ((nonFocus.length / 2 : Nat) + ((max 1 (ss.toNat / 3) : Nat) / 2 : Nat) : Int) ++
          pySlice nonFocus (-((max 1 (ss.toNat / 3) : Nat) : Int)) (nonFocus.length : Int)))
      exact this
  · simp

theorem filter_partition_length (p : String → Bool) :
    ∀ l : List String, (l.filter p).length + (l.filter (fun a => !(p a))).length = l.length := by
  intro l
  induction l with
  | nil => rfl
  | cons x xs ih =>
    by_cases h : p x
    · simp [List.filter_cons, h]
      omega
    · simp [List.filter_cons, h]
      omega

theorem focus_partition_length (children focus : List String) :
    (children.filter (fun c => focus.contains c)).length +
      (children.filter (fun c => !(focus.contains c))).length = children.length := by
  have h := filter_partition_length (fun c => focus.contains c) children
  simpa using h

/-- Claim C8 (amended): when a node's child count exceeds the remaining
vertical budget rh AND the focus-path children fit strictly under rh, the
selection keeps every focus-path child (first, in their original order),
fills the rest with the start/middle/end thirds sample of the non-focus
children (deduplicated keeping first occurrences, truncated to the sample
size rh - focus - 1), keeps the total selection strictly under rh (one
line is reserved for the marker), and sets the has-more flag exactly when
some child was omitted from the selection.  The marker line is then only
emitted when additionally the running line count is still below the
available height (explorer.py:343); when the focus-path children do not
fit, only the first rh - 1 focus children are kept, so focus children can
be dropped.  The last two points are where the claim as stated fails. -/
theorem select_children_amended (children focus : List String) (rh : Nat)
    (_hgt : rh < children.length)
    (hfit : (children.filter (fun c => focus.contains c)).length < rh) :
    (selectChildren children focus rh).1 =
      children.filter (fun c => focus.contains c) ++
        sampleThirds (children.filter (fun c => !(focus.contains c)))
          ((rh : Int) - (children.filter (fun c => focus.contains c)).length - 1) ∧
    (∀ x ∈ (selectChildren children focus rh).1, x ∈ children) ∧
    (selectChildren children focus rh).1.length < rh ∧
    ((selectChildren children focus rh).2 = true ↔
      (selectChildren children focus rh).1.length < children.length) := by
  have h1 : (selectChildren children focus rh).1 =
      children.filter (fun c => focus.contains c) ++
        sampleThirds (children.filter (fun c => !(focus.contains c)))
          ((rh : Int) - (children.filter (fun c => focus.contains c)).length - 1) := by
    simp only [selectChildren, if_pos hfit]
  have h2 : (selectChildren children focus rh).2 =
      decide ((children.filter (fun c => focus.contains c)).length +
        (children.filter (fun c => !(focus.contains c))).length >
        (children.filter (fun c => focus.contains c) ++
          sampleThirds (children.filter (fun c => !(focus.contains c)))
            ((rh : Int) - (children.filter (fun c => focus.contains c)).length - 1)).length) := by
    simp only [selectChildren, if_pos hfit]
  have hslen := sampleThirds_length (children.filter (fun c => !(focus.contains c)))
    ((rh : Int) - (children.filter (fun c => focus.contains c)).length - 1)
  have hpart := focus_partition_length children focus
  refine ⟨h1, ?_, ?_, ?_⟩
  · intro x hx
    rw [h1] at hx
    rcases List.mem_append.mp hx with hx | hx
    · exact List.mem_of_mem_filter hx
    · exact List.mem_of_mem_filter (sampleThirds_subset _ _ x hx)
  · rw [h1, List.length_append]
    omega
  · rw [h2, h1]
    simp only [List.length_append, decide_eq_true_eq]
    omega

/-- Witness for C8 at a concrete input: three children, one focus child,
budget 2. -/
theorem select_children_amended_witness :
    2 < (["a", "b", "c"] : List String).length ∧
    ((["a", "b", "c"] : List String).filter
      (fun c => (["a"] : List String).contains c)).length < 2 ∧
    ((selectChildren ["a", "b", "c"] ["a"] 2).1 =
      (["a", "b", "c"] : List String).filter (fun c => (["a"] : List String).contains c) ++
        sampleThirds ((["a", "b", "c"] : List String).filter
            (fun c => !((["a"] : List String).contains c)))
          ((2 : Int) - ((["a", "b", "c"] : List String).filter
            (fun c => (["a"] : List String).contains c)).length - 1) ∧
      (∀ x ∈ (selectChildren ["a", "b", "c"] ["a"] 2).1, x ∈ (["a", "b", "c"] : List String)) ∧
      (selectChildren ["a", "b", "c"] ["a"] 2).1.length < 2 ∧
      ((selectChildren ["a", "b", "c"] ["a"] 2).2 = true ↔
        (selectChildren ["a", "b", "c"] ["a"] 2).1.length <
          (["a", "b", "c"] : List String).length)) :=
  ⟨by decide, by decide,
    select_children_amended ["a", "b", "c"] ["a"] 2 (by decide) (by decide)⟩

/-- A two-child fan whose single focus child does not fit the budget. -/
def fanG : ConceptGraph := ⟨["R", "A", "B"], [("R", "A"), ("R", "B")]⟩

/-- A three-child fan whose first child has a child of its own. -/
def deepFanG : ConceptGraph :=
  ⟨["R", "P", "Q", "S", "D"], [("R", "P"), ("R", "Q"), ("R", "S"), ("P", "D")]⟩

/-- Counterexample to claim C8 as stated, two failing clauses: (i) on fanG
with focus child A and height 2, the child count 2 exceeds the remaining
budget 1 but the focus-path child A is NOT kept (no output line contains
A, only the root and the more-nodes marker); (ii) on deepFanG with height
3, the children Q and S of R are omitted from the emitted output yet NO
"(...more nodes...)" marker line is appended, because the emitted line
count reaches the budget first. -/
theorem bounded_sampling_counterexample :
    genTree fanG 80 10 "R" "" true [] ["A"] none 0 2 0 =
      ["└── R", "    └── (...more nodes...)"] ∧
    (successors fanG "R").length = 2 ∧
    (∀ l ∈ genTree fanG 80 10 "R" "" true [] ["A"] none 0 2 0,
      l.data.contains 'A' = false) ∧
    genTree deepFanG 80 10 "R" "" true [] [] none 0 3 0 =
      ["└── R", "    ├── P", "    │   └── D"] ∧
    (successors deepFanG "R").length = 3 ∧
    (∀ l ∈ genTree deepFanG 80 10 "R" "" true [] [] none 0 3 0,
      l.data.contains 'Q' = false ∧ l.data.contains 'S' = false ∧
      ("(...more nodes...)" : String).data.isSuffixOf l.data = false) := by
  decide
